import Mathlib

/-!
Verification of the `InfiniteMind` associative memory engine
(`InfiniteMindQuantized.py`).

The Python class is shallowly embedded as a state structure `InfiniteMind`
with pure state-passing operations.  Python floats are modelled as `ℚ`,
Python dicts (insertion ordered) as association lists, Python sets of
words as deduplicated lists (only membership and size are ever observed),
and each `time.time()` read as a logical clock tick stored in the state.
The `hashlib.md5(...)[:12]` id derivation is abstracted as a parameter
`hash : String → String`; every theorem quantifies over it.
-/

/-- Python `str.lower()` (character-wise lowering; defined on the
character list so that it computes by kernel reduction). -/
def pyLower (s : String) : String :=
  String.mk (s.data.map Char.toLower)

/-- Helper for `pySplit`: `cur` is the reversed current word. -/
def pyWordsAux : List Char → List Char → List String
  | [], cur => if cur.isEmpty then [] else [String.mk cur.reverse]
  | c :: cs, cur =>
    if c.isWhitespace then
      if cur.isEmpty then pyWordsAux cs []
      else String.mk cur.reverse :: pyWordsAux cs []
    else pyWordsAux cs (c :: cur)

/-- Python `str.split()` (no argument): split on whitespace runs,
discarding empty pieces. -/
def pySplit (s : String) : List String :=
  pyWordsAux s.data []

/-- Python `set(s.lower().split())`, represented as a deduplicated list (used
only through membership and size, i.e. with set semantics). -/
def wordSet (s : String) : List String :=
  (pySplit (pyLower s)).dedup

/-- Python `len(a & b)` for the word sets `a` (deduplicated) and `b`. -/
def interCount (a b : List String) : Nat :=
  (a.filter (fun w => w ∈ b)).length

/-- Python `len(a | b)` for word sets. -/
def unionCount (a b : List String) : Nat :=
  (a ++ b).dedup.length

/-- The strength formula `len(overlap) / max(len(words | existing_words), 1)` from
`_build_associations`. -/
def jaccardStrength (a b : List String) : ℚ :=
  (interCount a b : ℚ) / ((max (unionCount a b) 1 : ℕ) : ℚ)

/-- Python slice `l[:k]`, including negative-`k` semantics. -/
def pySlice (l : List α) (k : ℤ) : List α :=
  if 0 ≤ k then l.take k.toNat else l.take (l.length - (-k).toNat)

/-! ### Association lists modelling Python dicts (insertion ordered) -/

/-- First value stored under key `k`, i.e. `d[k]` when present. -/
def alistGet? (l : List (String × α)) (k : String) : Option α :=
  (l.find? (fun p => p.1 == k)).map (fun p => p.2)

/-- Python `k in d`. -/
def alistHasKey (l : List (String × α)) (k : String) : Bool :=
  l.any (fun p => p.1 == k)

/-- Python `d.setdefault(k, v)` (state effect only: inserts `(k, v)` at the end
when the key is absent). -/
def alistSetdefault (l : List (String × α)) (k : String) (v : α) :
    List (String × α) :=
  if alistHasKey l k then l else l ++ [(k, v)]

/-- Python `d[k].append(x)` for a dict of lists (no-op when the key is absent;
call sites guarantee presence, mirroring the Python code which would
raise otherwise). -/
def alistAppend (l : List (String × List β)) (k : String) (x : β) :
    List (String × List β) :=
  l.map (fun p => if p.1 == k then (p.1, p.2 ++ [x]) else p)

/-- Python `d[k] = v` (overwrite keeps the key position, insert appends). -/
def alistSet (l : List (String × α)) (k : String) (v : α) :
    List (String × α) :=
  if alistHasKey l k then
    l.map (fun p => if p.1 == k then (p.1, v) else p)
  else l ++ [(k, v)]

/-- Python `Counter[k] += 1`: missing keys count as 0 and are appended. -/
def counterIncr (l : List (String × Nat)) (k : String) :
    List (String × Nat) :=
  if alistHasKey l k then
    l.map (fun p => if p.1 == k then (p.1, p.2 + 1) else p)
  else l ++ [(k, 1)]

/-! ### Data model -/

/-- One stored thought record (the dict built in `expand`). -/
structure ThoughtEntry where
  content : String
  importance : ℚ
  timestamp : Nat
  id : String
  depth : Nat
  associations : List String
  deriving DecidableEq

instance : Inhabited ThoughtEntry :=
  ⟨⟨"", 0, 0, "", 0, []⟩⟩

/-- A record appended to `evolution_history` by `evolve_thought`. -/
structure EvolutionRecord where
  original : String
  evolved : String
  depth : ℤ
  timestamp : Nat
  deriving DecidableEq

/-- The mutable state of an `InfiniteMind` instance.  `clock` is the
logical time: each `time.time()` read returns the current value and
advances it. -/
structure InfiniteMind where
  thoughts : List ThoughtEntry
  raw_thoughts : List String
  associations : List (String × List String)
  importance_scores : List (String × ℚ)
  thought_frequency : List (String × Nat)
  evolution_history : List EvolutionRecord
  capacity : ℤ
  clock : Nat
  deriving DecidableEq

namespace InfiniteMind

/-- The constant `MAX_THOUGHT_DEPTH = 10`. -/
def MAX_THOUGHT_DEPTH : ℤ := 10

/-- The constructor `__init__(capacity)`. -/
def initMind (capacity : ℤ) : InfiniteMind :=
  { thoughts := []
    raw_thoughts := []
    associations := []
    importance_scores := []
    thought_frequency := []
    evolution_history := []
    capacity := capacity
    clock := 0 }

/-- One iteration of the `for existing in self.thoughts[:-1]` loop of
`_build_associations`: the accumulator is the current associations dict
together with the ids appended so far to the new entry's
`associations` list. -/
def assocStep (words : List String) (key : String)
    (acc : List (String × List String) × List String)
    (existing : ThoughtEntry) :
    List (String × List String) × List String :=
  let existing_words := wordSet existing.content
  let overlap := interCount words existing_words
  if overlap ≠ 0 then
    if jaccardStrength words existing_words > 1/10 then
      (alistAppend
         (alistSetdefault (alistAppend acc.1 key existing.content)
           existing.content [])
         existing.content key,
       acc.2 ++ [existing.id])
    else acc
  else acc

/-- The method `_build_associations(entry)` where `entry` is the entry just
appended to `self.thoughts` (the call site in `expand`); the Python
aliasing of `entry` with `self.thoughts[-1]` is modelled by rebuilding
the last list element. -/
def build_associations (m : InfiniteMind) : InfiniteMind :=
  match m.thoughts.getLast? with
  | none => m
  | some entry =>
    let words := wordSet entry.content
    let key := entry.content
    let res := m.thoughts.dropLast.foldl (assocStep words key)
      (alistSetdefault m.associations key [], [])
    { m with
      associations := res.1
      thoughts := m.thoughts.dropLast ++
        [{ entry with associations := entry.associations ++ res.2 }] }

/-- Helper of `_evict_least_important`: first index of minimal importance, as
computed by Python `min(range(n), key=...)` (a first-minimum scan). -/
def firstMinIdxAux : List ℚ → Nat → ℚ → Nat → Nat
  | [], bi, _, _ => bi
  | x :: xs, bi, bv, i =>
    if x < bv then firstMinIdxAux xs i x (i + 1)
    else firstMinIdxAux xs bi bv (i + 1)

/-- Index of the first minimum of a list of importances (0 on `[]`). -/
def firstMinIdx : List ℚ → Nat
  | [] => 0
  | x :: xs => firstMinIdxAux xs 0 x 1

/-- The method `_evict_least_important()`. -/
def evict_least_important (m : InfiniteMind) : InfiniteMind :=
  if m.thoughts.isEmpty then m
  else
    let min_idx := firstMinIdx (m.thoughts.map (fun t => t.importance))
    let evicted := m.thoughts.getD min_idx default
    { m with
      thoughts := m.thoughts.eraseIdx min_idx
      raw_thoughts := m.raw_thoughts.erase evicted.content }

/-- The body of `expand`'s per-item loop up to and including
`_build_associations` (everything before the capacity check). -/
def insertOne (hash : String → String) (m : InfiniteMind)
    (thought_str : String) (importance : ℚ) : InfiniteMind :=
  let entry : ThoughtEntry :=
    { content := thought_str
      importance := importance
      timestamp := m.clock
      id := hash thought_str
      depth := 0
      associations := [] }
  build_associations
    { m with
      raw_thoughts := m.raw_thoughts ++ [thought_str]
      thoughts := m.thoughts ++ [entry]
      importance_scores := alistSet m.importance_scores thought_str importance
      thought_frequency := counterIncr m.thought_frequency thought_str
      clock := m.clock + 1 }

/-- One full iteration of `expand`'s loop: insert, then evict when the
entry count exceeds `capacity`. -/
def expandOne (hash : String → String) (m : InfiniteMind)
    (thought_str : String) (importance : ℚ) : InfiniteMind :=
  let m1 := insertOne hash m thought_str importance
  if (m1.thoughts.length : ℤ) > m1.capacity then evict_least_important m1
  else m1

/-! ### Python input values for `expand`

`expand` checks `isinstance(thoughts, list)`; anything that is not a
list (strings, numbers, tuples) is wrapped as a one-element batch, and
every item is coerced with `str(...)`. -/

/-- Python values that can be handed to `expand`. -/
inductive PyVal where
  | str : String → PyVal
  | int : ℤ → PyVal
  | tuple : List PyVal → PyVal
  | list : List PyVal → PyVal

/-- A single-quote character (used by Python `repr` of strings). -/
def sq : String := String.singleton (Char.ofNat 39)

mutual

/-- Python `repr`. -/
def pyRepr : PyVal → String
  | .str s => sq ++ s ++ sq
  | .int n => toString n
  | .tuple xs =>
    "(" ++ String.intercalate ", " (pyReprList xs) ++
      (if xs.length == 1 then ",)" else ")")
  | .list xs => "[" ++ String.intercalate ", " (pyReprList xs) ++ "]"

/-- Python `repr` mapped over a list of values. -/
def pyReprList : List PyVal → List String
  | [] => []
  | x :: xs => pyRepr x :: pyReprList xs

end

/-- Python `str(...)`. -/
def pyStr : PyVal → String
  | .str s => s
  | v => pyRepr v

/-- Python `isinstance(v, list)`. -/
def PyVal.isList : PyVal → Bool
  | .list _ => true
  | _ => false

/-- The method `expand(thoughts, importance)`: state effect (the Python method
additionally returns `self.raw_thoughts`, recoverable from the result
state). -/
def expand (hash : String → String) (m : InfiniteMind) (thoughts : PyVal)
    (importance : ℚ) : InfiniteMind :=
  let items := match thoughts with
    | .list xs => xs
    | v => [v]
  items.foldl (fun acc t => expandOne hash acc (pyStr t) importance) m

/-! ### Recall -/

/-- One `{thought, relevance}` result dict of `recall`. -/
structure Scored where
  thought : ThoughtEntry
  relevance : ℚ
  deriving DecidableEq

/-- The `scored` list built by `recall` before sorting. -/
def recallMatches (m : InfiniteMind) (query : String) : List Scored :=
  let query_words := wordSet query
  m.thoughts.filterMap (fun t =>
    let overlap := interCount query_words (wordSet t.content)
    if overlap > 0 then
      some ⟨t, (overlap : ℚ) * t.importance⟩
    else none)

/-- The comparator realizing `sort(key=relevance, reverse=True)`:
a stable sort placing larger relevance first. -/
def scoredLE (a b : Scored) : Bool :=
  decide (b.relevance ≤ a.relevance)

/-- The method `recall(query, top_k)` (the Python method name `recall` is a
reserved word here, hence the quoting). -/
def «recall» (m : InfiniteMind) (query : String) (top_k : ℤ) : List Scored :=
  pySlice ((recallMatches m query).mergeSort scoredLE) top_k

/-! ### Evolution and novelty -/

/-- The `seen` / `evolved_words` loop of `evolve_thought`; `seen` is the
set of lower-cased words already kept (represented as a list, used only
through membership). -/
def ciDedupAux : List String → List String → List String → List String
  | [], _, acc => acc
  | w :: ws, seen, acc =>
    if pyLower w ∈ seen then ciDedupAux ws seen acc
    else ciDedupAux ws (seen ++ [pyLower w]) (acc ++ [w])

/-- Order-preserving case-insensitive deduplication, as performed by the
merge loop of `evolve_thought`. -/
def ciDedup (ws : List String) : List String :=
  ciDedupAux ws [] []

/-- The method `evolve_thought(thought, depth)`: returns the new state and the
returned string. -/
def evolve_thought (m : InfiniteMind) (thought : String) (depth : ℤ) :
    InfiniteMind × String :=
  if depth ≥ MAX_THOUGHT_DEPTH then (m, thought)
  else
    match «recall» m thought 3 with
    | [] => (m, thought)
    | top :: _ =>
      let top_related := top.thought.content
      let words_a := pySplit thought
      let words_b := pySplit top_related
      let evolved_words := ciDedup (words_a ++ words_b)
      let evolved := " ".intercalate evolved_words
      ({ m with
          evolution_history := m.evolution_history ++
            [{ original := thought
               evolved := evolved
               depth := depth
               timestamp := m.clock }]
          clock := m.clock + 1 },
       evolved)

/-- The method `detect_novelty(thought)`. -/
def detect_novelty (m : InfiniteMind) (thought : String) : ℚ :=
  if m.thoughts.isEmpty then 1
  else
    match «recall» m thought 1 with
    | [] => 1
    | top :: _ => max 0 (1 - top.relevance)

/-! ### Structural lemmas about insertion and eviction -/

/-- Insertion via `insertOne` appends one entry carrying the stringified input and
one raw string, and touches neither capacity nor the evolution log. -/
theorem insertOne_spec (hash : String → String) (m : InfiniteMind)
    (t : String) (imp : ℚ) :
    ∃ ids,
      (insertOne hash m t imp).thoughts =
        m.thoughts ++ [{ content := t, importance := imp, timestamp := m.clock,
                         id := hash t, depth := 0, associations := ids }] ∧
      (insertOne hash m t imp).raw_thoughts = m.raw_thoughts ++ [t] ∧
      (insertOne hash m t imp).associations =
        (m.thoughts.foldl (assocStep (wordSet t) t)
          (alistSetdefault m.associations t [], [])).1 ∧
      (insertOne hash m t imp).capacity = m.capacity ∧
      (insertOne hash m t imp).clock = m.clock + 1 ∧
      (insertOne hash m t imp).evolution_history = m.evolution_history := by
  refine ⟨(m.thoughts.foldl (assocStep (wordSet t) t)
      (alistSetdefault m.associations t [], [])).2, ?_, ?_, ?_, ?_, ?_, ?_⟩ <;>
    simp [insertOne, build_associations, List.getLast?_concat,
      List.dropLast_concat]

/-- The entry count after `insertOne` is the old count plus one. -/
theorem insertOne_length (hash : String → String) (m : InfiniteMind)
    (t : String) (imp : ℚ) :
    (insertOne hash m t imp).thoughts.length = m.thoughts.length + 1 := by
  obtain ⟨ids, h, -⟩ := insertOne_spec hash m t imp
  simp [h]

/-- The first-minimum scan stays within bounds. -/
theorem firstMinIdxAux_lt (xs : List ℚ) : ∀ (bi : Nat) (bv : ℚ) (i : Nat),
    bi < i → firstMinIdxAux xs bi bv i < i + xs.length := by
  induction xs with
  | nil => intro bi bv i h; simpa [firstMinIdxAux] using h
  | cons x xs ih =>
    intro bi bv i h
    simp only [firstMinIdxAux, List.length_cons]
    split
    · have := ih i x (i + 1) (by omega); omega
    · have := ih bi bv (i + 1) (by omega); omega

/-- The selected eviction index is a valid index. -/
theorem firstMinIdx_lt {l : List ℚ} (h : l ≠ []) :
    firstMinIdx l < l.length := by
  match l with
  | x :: xs =>
    have := firstMinIdxAux_lt xs 0 x 1 (by omega)
    simp only [firstMinIdx, List.length_cons]
    omega

/-- Eviction on a non-empty store removes exactly one entry. -/
theorem evict_length {m : InfiniteMind} (h : m.thoughts ≠ []) :
    (evict_least_important m).thoughts.length + 1 = m.thoughts.length := by
  unfold evict_least_important
  rw [if_neg (by simpa [List.isEmpty_iff] using h)]
  have hidx : firstMinIdx (m.thoughts.map (fun t => t.importance)) <
      m.thoughts.length := by
    have := @firstMinIdx_lt (m.thoughts.map (fun t => t.importance))
      (by simpa using h)
    simpa using this
  have := List.length_eraseIdx_of_lt hidx
  simp only [this]
  omega

/-- Eviction never changes the capacity. -/
theorem evict_capacity (m : InfiniteMind) :
    (evict_least_important m).capacity = m.capacity := by
  unfold evict_least_important
  split <;> rfl

/-- Unfolded form of `expandOne`. -/
theorem expandOne_eq (hash : String → String) (m : InfiniteMind)
    (t : String) (imp : ℚ) :
    expandOne hash m t imp =
      if ((insertOne hash m t imp).thoughts.length : ℤ) >
          (insertOne hash m t imp).capacity then
        evict_least_important (insertOne hash m t imp)
      else insertOne hash m t imp := rfl

/-- One `expandOne` step keeps `capacity` fixed and, when the entry
count was within capacity, keeps it within capacity. -/
theorem expandOne_preserves (hash : String → String) {cap : ℤ}
    (m : InfiniteMind) (t : String) (imp : ℚ) (h1 : m.capacity = cap)
    (h2 : (m.thoughts.length : ℤ) ≤ cap) :
    (expandOne hash m t imp).capacity = cap ∧
    ((expandOne hash m t imp).thoughts.length : ℤ) ≤ cap := by
  obtain ⟨ids, hth, -, -, hcap, -, -⟩ := insertOne_spec hash m t imp
  have hlen := insertOne_length hash m t imp
  have hne : (insertOne hash m t imp).thoughts ≠ [] := by
    intro hnil
    rw [hnil] at hlen
    simp at hlen
  rw [expandOne_eq]
  split
  · refine ⟨by rw [evict_capacity, hcap, h1], ?_⟩
    have := evict_length hne
    omega
  · next hov =>
    rw [hcap, h1] at hov
    rw [hlen] at hov
    exact ⟨by rw [hcap, h1], by rw [hlen]; omega⟩

/-- Folding `expandOne` over a batch preserves the capacity bound. -/
theorem foldl_expandOne_preserves (hash : String → String) {cap : ℤ}
    (items : List PyVal) (imp : ℚ) : ∀ (m : InfiniteMind),
    m.capacity = cap → (m.thoughts.length : ℤ) ≤ cap →
    ((items.foldl (fun acc t => expandOne hash acc (pyStr t) imp) m).capacity
        = cap ∧
     (((items.foldl (fun acc t => expandOne hash acc (pyStr t) imp)
        m).thoughts.length : ℤ) ≤ cap)) := by
  induction items with
  | nil => intro m h1 h2; exact ⟨h1, h2⟩
  | cons x xs ih =>
    intro m h1 h2
    obtain ⟨h1x, h2x⟩ := expandOne_preserves hash m (pyStr x) imp h1 h2
    exact ih _ h1x h2x

/-- A full `expand` call preserves the capacity bound. -/
theorem expand_preserves (hash : String → String) {cap : ℤ}
    (m : InfiniteMind) (v : PyVal) (imp : ℚ) (h1 : m.capacity = cap)
    (h2 : (m.thoughts.length : ℤ) ≤ cap) :
    (expand hash m v imp).capacity = cap ∧
    ((expand hash m v imp).thoughts.length : ℤ) ≤ cap := by
  cases v with
  | list xs => exact foldl_expandOne_preserves hash xs imp m h1 h2
  | str s => exact foldl_expandOne_preserves hash [PyVal.str s] imp m h1 h2
  | int n => exact foldl_expandOne_preserves hash [PyVal.int n] imp m h1 h2
  | tuple xs =>
    exact foldl_expandOne_preserves hash [PyVal.tuple xs] imp m h1 h2

/-! ### C1.  Capacity invariant -/

unseal Rat.mul Rat.inv Rat.add Rat.sub in
/-- C1 (counterexample): the claim quantifies over *every* capacity
value, but for the (accepted) negative capacity `-1` a single ingested
item leaves 0 entries, and `0 ≤ -1` is false: the entry count is not
"at most `capacity`" after the insertion. -/
theorem capacity_invariant_cex :
    ¬ (((expand (fun s => s) (initMind (-1)) (PyVal.str "a")
          1).thoughts.length : ℤ)
        ≤ (expand (fun s => s) (initMind (-1)) (PyVal.str "a")
            1).capacity) := by
  decide

/-- C1 (amended): for every *nonnegative* capacity and every sequence
of `expand` calls, after each individual item is inserted the entry
count is at most `capacity`; an insertion that pushes the count above
capacity performs exactly one eviction (the step equations make the
per-item behaviour explicit, so the bound holds after every item of
every batch). -/
theorem capacity_invariant_amended (hash : String → String) :
    (∀ (m : InfiniteMind) (t : String) (imp : ℚ),
      (m.thoughts.length : ℤ) ≤ m.capacity →
        (((expandOne hash m t imp).thoughts.length : ℤ) ≤ m.capacity ∧
         (expandOne hash m t imp).capacity = m.capacity) ∧
        (m.capacity < (m.thoughts.length : ℤ) + 1 →
          expandOne hash m t imp =
            evict_least_important (insertOne hash m t imp) ∧
          (expandOne hash m t imp).thoughts.length = m.thoughts.length) ∧
        ((m.thoughts.length : ℤ) + 1 ≤ m.capacity →
          expandOne hash m t imp = insertOne hash m t imp ∧
          (expandOne hash m t imp).thoughts.length
            = m.thoughts.length + 1)) ∧
    (∀ (cap : ℤ), 0 ≤ cap → ∀ (calls : List (PyVal × ℚ)),
      ((calls.foldl (fun acc c => expand hash acc c.1 c.2)
          (initMind cap)).thoughts.length : ℤ) ≤ cap) := by
  constructor
  · intro m t imp hle
    obtain ⟨ids, hth, -, -, hcap, -, -⟩ := insertOne_spec hash m t imp
    have hlen := insertOne_length hash m t imp
    have hne : (insertOne hash m t imp).thoughts ≠ [] := by
      intro hnil
      rw [hnil] at hlen
      simp at hlen
    refine ⟨⟨(expandOne_preserves hash m t imp rfl hle).2,
             (expandOne_preserves hash m t imp rfl hle).1⟩, ?_, ?_⟩
    · intro hover
      have hcond : ((insertOne hash m t imp).thoughts.length : ℤ) >
          (insertOne hash m t imp).capacity := by
        rw [hlen, hcap]
        omega
      have he : expandOne hash m t imp =
          evict_least_important (insertOne hash m t imp) := by
        rw [expandOne_eq, if_pos hcond]
      refine ⟨he, ?_⟩
      rw [he]
      have := evict_length hne
      omega
    · intro hunder
      have hcond : ¬ (((insertOne hash m t imp).thoughts.length : ℤ) >
          (insertOne hash m t imp).capacity) := by
        rw [hlen, hcap]
        omega
      have he : expandOne hash m t imp = insertOne hash m t imp := by
        rw [expandOne_eq, if_neg hcond]
      exact ⟨he, by rw [he, hlen]⟩
  · intro cap hcap calls
    suffices h : ∀ (calls : List (PyVal × ℚ)) (m : InfiniteMind),
        m.capacity = cap → (m.thoughts.length : ℤ) ≤ cap →
        ((calls.foldl (fun acc c => expand hash acc c.1 c.2)
            m).capacity = cap ∧
         ((calls.foldl (fun acc c => expand hash acc c.1 c.2)
            m).thoughts.length : ℤ) ≤ cap) by
      exact (h calls (initMind cap) rfl (by simp [initMind]; omega)).2
    intro calls
    induction calls with
    | nil => intro m h1 h2; exact ⟨h1, h2⟩
    | cons c cs ih =>
      intro m h1 h2
      obtain ⟨h1c, h2c⟩ := expand_preserves hash m c.1 c.2 h1 h2
      exact ih _ h1c h2c

unseal Rat.mul Rat.inv Rat.add Rat.sub in
/-- C1 (witness): a concrete run at capacity 1 where the second item
triggers exactly one eviction and the bound holds. -/
theorem capacity_invariant_amended_witness :
    (((expandOne (fun s => s)
        (expandOne (fun s => s) (initMind 1) "a" 1) "b" 1).thoughts.length : ℤ)
      ≤ (expandOne (fun s => s) (initMind 1) "a" 1).capacity) ∧
    ((0 : ℤ) ≤ 2) ∧
    ((([((PyVal.str "a" : PyVal), (1 : ℚ)), (PyVal.str "b", 1),
        (PyVal.str "c", 1)].foldl
          (fun acc c => expand (fun s => s) acc c.1 c.2)
          (initMind 2)).thoughts.length : ℤ) ≤ 2) := by
  refine ⟨?_, by decide, ?_⟩
  · exact (((capacity_invariant_amended (fun s => s)).1
      (expandOne (fun s => s) (initMind 1) "a" 1) "b" 1 (by decide)).1).1
  · exact (capacity_invariant_amended (fun s => s)).2 2 (by decide) _

/-! ### C8.  Evolve frame and logging -/

/-- C8: `evolve_thought` returns the input unchanged (and leaves the
whole state unchanged) when `depth ≥ MAX_THOUGHT_DEPTH` or when recall
finds no match; otherwise it appends exactly one
`{original, evolved, depth, timestamp}` record to the evolution history
and changes nothing else of the state.  The definition is
non-recursive, so these one-step equations describe every call
completely. -/
theorem evolve_frame (m : InfiniteMind) (thought : String) (depth : ℤ) :
    (MAX_THOUGHT_DEPTH ≤ depth → evolve_thought m thought depth = (m, thought)) ∧
    (depth < MAX_THOUGHT_DEPTH → «recall» m thought 3 = [] →
      evolve_thought m thought depth = (m, thought)) ∧
    (∀ top rest, depth < MAX_THOUGHT_DEPTH →
      «recall» m thought 3 = top :: rest →
      (evolve_thought m thought depth).1.evolution_history =
        m.evolution_history ++
          [{ original := thought,
             evolved := (evolve_thought m thought depth).2,
             depth := depth,
             timestamp := m.clock }] ∧
      (evolve_thought m thought depth).1.thoughts = m.thoughts ∧
      (evolve_thought m thought depth).1.raw_thoughts = m.raw_thoughts ∧
      (evolve_thought m thought depth).1.associations = m.associations ∧
      (evolve_thought m thought depth).1.importance_scores
        = m.importance_scores ∧
      (evolve_thought m thought depth).1.thought_frequency
        = m.thought_frequency ∧
      (evolve_thought m thought depth).1.capacity = m.capacity) := by
  refine ⟨?_, ?_, ?_⟩
  · intro h
    simp [evolve_thought, h]
  · intro h1 h2
    simp [evolve_thought, not_le.mpr h1, h2]
  · intro top rest h1 h2
    simp [evolve_thought, not_le.mpr h1, h2]

unseal Rat.mul Rat.inv Rat.add Rat.sub List.merge List.mergeSort in
/-- C8 (witness): the three cases at concrete inputs. -/
theorem evolve_frame_witness :
    evolve_thought (initMind 5) "x" 10 = (initMind 5, "x") ∧
    evolve_thought (initMind 5) "x" 0 = (initMind 5, "x") ∧
    (evolve_thought (expand (fun s => s) (initMind 10)
        (PyVal.str "apple pie recipe") 1) "red apple pie" 0).1.evolution_history
      = (expand (fun s => s) (initMind 10)
          (PyVal.str "apple pie recipe") 1).evolution_history ++
        [{ original := "red apple pie",
           evolved := (evolve_thought (expand (fun s => s) (initMind 10)
               (PyVal.str "apple pie recipe") 1) "red apple pie" 0).2,
           depth := 0,
           timestamp := (expand (fun s => s) (initMind 10)
               (PyVal.str "apple pie recipe") 1).clock }] :=
  ⟨(evolve_frame (initMind 5) "x" 10).1 (by decide),
   (evolve_frame (initMind 5) "x" 0).2.1 (by decide) (by decide),
   ((evolve_frame (expand (fun s => s) (initMind 10)
       (PyVal.str "apple pie recipe") 1) "red apple pie" 0).2.2
     ⟨⟨"apple pie recipe", 1, 0, "apple pie recipe", 0, []⟩, 2⟩ []
     (by decide) (by decide)).1⟩

/-! ### C9.  Eviction leaves the association index stale -/

/-- C9: eviction removes one entry (and the first matching raw string)
but leaves the association adjacency map completely unchanged —
including the evicted content's key — and every surviving entry occurs
verbatim in the old store, so no entry-level `associations` id list is
pruned. -/
theorem evict_preserves_association_index (m : InfiniteMind) :
    (evict_least_important m).associations = m.associations ∧
    (∀ e, e ∈ (evict_least_important m).thoughts → e ∈ m.thoughts) ∧
    (m.thoughts ≠ [] →
      ∃ i, i < m.thoughts.length ∧
        (evict_least_important m).thoughts = m.thoughts.eraseIdx i ∧
        (evict_least_important m).raw_thoughts =
          m.raw_thoughts.erase (m.thoughts.getD i default).content) := by
  by_cases h : m.thoughts.isEmpty
  · unfold evict_least_important
    rw [if_pos h]
    refine ⟨rfl, fun e he => he, fun hne => ?_⟩
    exact absurd (List.isEmpty_iff.mp h) hne
  · unfold evict_least_important
    rw [if_neg h]
    have hne : m.thoughts ≠ [] := by
      intro hnil
      rw [hnil] at h
      simp at h
    have hidx : firstMinIdx (m.thoughts.map (fun t => t.importance)) <
        m.thoughts.length := by
      have := @firstMinIdx_lt (m.thoughts.map (fun t => t.importance))
        (by simpa using hne)
      simpa using this
    refine ⟨rfl, ?_, ?_⟩
    · intro e he
      exact (List.eraseIdx_sublist m.thoughts _).mem he
    · intro _
      exact ⟨_, hidx, rfl, rfl⟩

unseal Rat.mul Rat.inv Rat.add Rat.sub in
/-- C9 (witness): concrete two-entry store; "a" is evicted, the map
and the surviving entry are untouched. -/
theorem evict_preserves_association_index_witness :
    (evict_least_important (expand (fun s => s) (initMind 10)
        (PyVal.list [PyVal.str "a", PyVal.str "b c"]) 1)).associations
      = (expand (fun s => s) (initMind 10)
          (PyVal.list [PyVal.str "a", PyVal.str "b c"]) 1).associations ∧
    (⟨"b c", 1, 1, "b c", 0, []⟩ : ThoughtEntry) ∈
      (expand (fun s => s) (initMind 10)
        (PyVal.list [PyVal.str "a", PyVal.str "b c"]) 1).thoughts ∧
    (∃ i, i < (expand (fun s => s) (initMind 10)
          (PyVal.list [PyVal.str "a", PyVal.str "b c"]) 1).thoughts.length ∧
      (evict_least_important (expand (fun s => s) (initMind 10)
          (PyVal.list [PyVal.str "a", PyVal.str "b c"]) 1)).thoughts
        = (expand (fun s => s) (initMind 10)
            (PyVal.list [PyVal.str "a", PyVal.str "b c"]) 1).thoughts.eraseIdx i ∧
      (evict_least_important (expand (fun s => s) (initMind 10)
          (PyVal.list [PyVal.str "a", PyVal.str "b c"]) 1)).raw_thoughts
        = (expand (fun s => s) (initMind 10)
            (PyVal.list [PyVal.str "a", PyVal.str "b c"]) 1).raw_thoughts.erase
          ((expand (fun s => s) (initMind 10)
            (PyVal.list [PyVal.str "a", PyVal.str "b c"]) 1).thoughts.getD i
              default).content) :=
  ⟨(evict_preserves_association_index (expand (fun s => s) (initMind 10)
      (PyVal.list [PyVal.str "a", PyVal.str "b c"]) 1)).1,
   (evict_preserves_association_index (expand (fun s => s) (initMind 10)
      (PyVal.list [PyVal.str "a", PyVal.str "b c"]) 1)).2.1
     ⟨"b c", 1, 1, "b c", 0, []⟩ (by decide),
   (evict_preserves_association_index (expand (fun s => s) (initMind 10)
      (PyVal.list [PyVal.str "a", PyVal.str "b c"]) 1)).2.2 (by decide)⟩

/-! ### C3.  Eviction selection -/

/-- Reading `getD` on the left part of an append. -/
theorem getD_append_left {l r : List ℚ} {n : Nat} (h : n < l.length) :
    (l ++ r).getD n 0 = l.getD n 0 := by
  simp [List.getD_eq_getElem?_getD, List.getElem?_append_left h]

/-- Reading `getD` at the appended element. -/
theorem getD_concat_self {l : List ℚ} {x : ℚ} :
    (l ++ [x]).getD l.length 0 = x := by
  simp [List.getD_eq_getElem?_getD, List.getElem?_concat_length]

/-- Specification of the first-minimum scan: starting from a best index
`bi` that is the first minimum of the already processed prefix `p`, the
scan returns the first minimum of the full list. -/
theorem firstMinIdxAux_spec (rest : List ℚ) : ∀ (p : List ℚ) (bi : Nat),
    bi < p.length →
    (∀ j, j < p.length → p.getD bi 0 ≤ p.getD j 0) →
    (∀ j, j < bi → p.getD bi 0 < p.getD j 0) →
    (firstMinIdxAux rest bi (p.getD bi 0) p.length < (p ++ rest).length ∧
     (∀ j, j < (p ++ rest).length →
       (p ++ rest).getD (firstMinIdxAux rest bi (p.getD bi 0) p.length) 0
         ≤ (p ++ rest).getD j 0) ∧
     (∀ j, j < firstMinIdxAux rest bi (p.getD bi 0) p.length →
       (p ++ rest).getD (firstMinIdxAux rest bi (p.getD bi 0) p.length) 0
         < (p ++ rest).getD j 0)) := by
  induction rest with
  | nil =>
    intro p bi hbi hmin hfirst
    simp only [firstMinIdxAux, List.append_nil]
    exact ⟨hbi, hmin, hfirst⟩
  | cons x xs ih =>
    intro p bi hbi hmin hfirst
    have hlen : (p ++ [x]).length = p.length + 1 := by simp
    by_cases hx : x < p.getD bi 0
    · have hbix : (p ++ [x]).getD p.length 0 = x := getD_concat_self
      have h1 : p.length < (p ++ [x]).length := by omega
      have h2 : ∀ j, j < (p ++ [x]).length →
          (p ++ [x]).getD p.length 0 ≤ (p ++ [x]).getD j 0 := by
        intro j hj
        rcases Nat.lt_or_ge j p.length with hj2 | hj2
        · rw [hbix, getD_append_left hj2]
          exact le_of_lt (lt_of_lt_of_le hx (hmin j hj2))
        · have : j = p.length := by omega
          subst this
          rw [hbix]
      have h3 : ∀ j, j < p.length →
          (p ++ [x]).getD p.length 0 < (p ++ [x]).getD j 0 := by
        intro j hj
        rw [hbix, getD_append_left hj]
        exact lt_of_lt_of_le hx (hmin j hj)
      have hres := ih (p ++ [x]) p.length h1 h2 h3
      rw [hbix] at hres
      rw [hlen] at hres
      simp only [List.append_assoc, List.singleton_append] at hres
      have hstep : firstMinIdxAux (x :: xs) bi (p.getD bi 0) p.length =
          firstMinIdxAux xs p.length x (p.length + 1) := by
        simp only [firstMinIdxAux, if_pos hx]
      rw [hstep]
      exact hres
    · have hbi2 : bi < (p ++ [x]).length := by omega
      have hget : (p ++ [x]).getD bi 0 = p.getD bi 0 := getD_append_left hbi
      have h2 : ∀ j, j < (p ++ [x]).length →
          (p ++ [x]).getD bi 0 ≤ (p ++ [x]).getD j 0 := by
        intro j hj
        rcases Nat.lt_or_ge j p.length with hj2 | hj2
        · rw [hget, getD_append_left hj2]
          exact hmin j hj2
        · have : j = p.length := by omega
          subst this
          rw [hget, getD_concat_self]
          exact not_lt.mp hx
      have h3 : ∀ j, j < bi →
          (p ++ [x]).getD bi 0 < (p ++ [x]).getD j 0 := by
        intro j hj
        rw [hget, getD_append_left (by omega)]
        exact hfirst j hj
      have hres := ih (p ++ [x]) bi hbi2 h2 h3
      rw [hget] at hres
      rw [hlen] at hres
      simp only [List.append_assoc, List.singleton_append] at hres
      have hstep : firstMinIdxAux (x :: xs) bi (p.getD bi 0) p.length =
          firstMinIdxAux xs bi (p.getD bi 0) (p.length + 1) := by
        simp only [firstMinIdxAux, if_neg hx]
      rw [hstep]
      exact hres

/-- The first-minimum scan returns the index of the first minimal
element of a non-empty list. -/
theorem firstMinIdx_spec {l : List ℚ} (h : l ≠ []) :
    firstMinIdx l < l.length ∧
    (∀ j, j < l.length → l.getD (firstMinIdx l) 0 ≤ l.getD j 0) ∧
    (∀ j, j < firstMinIdx l → l.getD (firstMinIdx l) 0 < l.getD j 0) := by
  match l with
  | x :: xs =>
    have base := firstMinIdxAux_spec xs [x] 0 (by simp) (by simp) (by omega)
    simpa [firstMinIdx] using base

/-- C3: eviction on a non-empty store removes the first entry (in store
order) of minimal importance and erases the first occurrence of its
content from the raw list, changing nothing else; on an empty store it
is a complete no-op. -/
theorem eviction_selects_first_min (m : InfiniteMind) :
    (m.thoughts = [] → evict_least_important m = m) ∧
    (m.thoughts ≠ [] →
      ∃ i, i < m.thoughts.length ∧
        (∀ j, j < m.thoughts.length →
          (m.thoughts.map (fun t => t.importance)).getD i 0 ≤
            (m.thoughts.map (fun t => t.importance)).getD j 0) ∧
        (∀ j, j < i →
          (m.thoughts.map (fun t => t.importance)).getD i 0 <
            (m.thoughts.map (fun t => t.importance)).getD j 0) ∧
        (evict_least_important m).thoughts = m.thoughts.eraseIdx i ∧
        (evict_least_important m).raw_thoughts =
          m.raw_thoughts.erase (m.thoughts.getD i default).content ∧
        (evict_least_important m).associations = m.associations ∧
        (evict_least_important m).importance_scores = m.importance_scores ∧
        (evict_least_important m).thought_frequency = m.thought_frequency ∧
        (evict_least_important m).evolution_history = m.evolution_history ∧
        (evict_least_important m).capacity = m.capacity ∧
        (evict_least_important m).clock = m.clock) := by
  constructor
  · intro h
    unfold evict_least_important
    rw [if_pos (by simp [h])]
  · intro hne
    have hvals : (m.thoughts.map (fun t => t.importance)) ≠ [] := by
      simpa using hne
    obtain ⟨hlt, hmin, hfirst⟩ := firstMinIdx_spec hvals
    rw [List.length_map] at hlt
    refine ⟨firstMinIdx (m.thoughts.map (fun t => t.importance)), hlt,
      fun j hj => hmin j (by simpa using hj), hfirst, ?_⟩
    unfold evict_least_important
    rw [if_neg (by simpa [List.isEmpty_iff] using hne)]
    exact ⟨rfl, rfl, rfl, rfl, rfl, rfl, rfl, rfl⟩

unseal Rat.mul Rat.inv Rat.add Rat.sub in
/-- C3 (witness): the spec scenario — capacity 2, two tied entries of
importance 1, a third of importance 5: the first tied entry is removed
from both lists. -/
theorem eviction_selects_first_min_witness :
    (evict_least_important (initMind 2) = initMind 2) ∧
    (∃ i, i < (insertOne (fun s => s)
        (expand (fun s => s) (initMind 2)
          (PyVal.list [PyVal.str "the cat sat", PyVal.str "the cat ran"]) 1)
        "a dog barked" 5).thoughts.length ∧
      (∀ j, j < (insertOne (fun s => s)
          (expand (fun s => s) (initMind 2)
            (PyVal.list [PyVal.str "the cat sat", PyVal.str "the cat ran"]) 1)
          "a dog barked" 5).thoughts.length →
        ((insertOne (fun s => s)
          (expand (fun s => s) (initMind 2)
            (PyVal.list [PyVal.str "the cat sat", PyVal.str "the cat ran"]) 1)
          "a dog barked" 5).thoughts.map (fun t => t.importance)).getD i 0 ≤
          ((insertOne (fun s => s)
            (expand (fun s => s) (initMind 2)
              (PyVal.list [PyVal.str "the cat sat", PyVal.str "the cat ran"]) 1)
            "a dog barked" 5).thoughts.map (fun t => t.importance)).getD j 0) ∧
      (∀ j, j < i →
        ((insertOne (fun s => s)
          (expand (fun s => s) (initMind 2)
            (PyVal.list [PyVal.str "the cat sat", PyVal.str "the cat ran"]) 1)
          "a dog barked" 5).thoughts.map (fun t => t.importance)).getD i 0 <
          ((insertOne (fun s => s)
            (expand (fun s => s) (initMind 2)
              (PyVal.list [PyVal.str "the cat sat", PyVal.str "the cat ran"]) 1)
            "a dog barked" 5).thoughts.map (fun t => t.importance)).getD j 0) ∧
      (evict_least_important (insertOne (fun s => s)
        (expand (fun s => s) (initMind 2)
          (PyVal.list [PyVal.str "the cat sat", PyVal.str "the cat ran"]) 1)
        "a dog barked" 5)).thoughts =
        (insertOne (fun s => s)
          (expand (fun s => s) (initMind 2)
            (PyVal.list [PyVal.str "the cat sat", PyVal.str "the cat ran"]) 1)
          "a dog barked" 5).thoughts.eraseIdx i ∧
      (evict_least_important (insertOne (fun s => s)
        (expand (fun s => s) (initMind 2)
          (PyVal.list [PyVal.str "the cat sat", PyVal.str "the cat ran"]) 1)
        "a dog barked" 5)).raw_thoughts =
        (insertOne (fun s => s)
          (expand (fun s => s) (initMind 2)
            (PyVal.list [PyVal.str "the cat sat", PyVal.str "the cat ran"]) 1)
          "a dog barked" 5).raw_thoughts.erase
          ((insertOne (fun s => s)
            (expand (fun s => s) (initMind 2)
              (PyVal.list [PyVal.str "the cat sat", PyVal.str "the cat ran"]) 1)
            "a dog barked" 5).thoughts.getD i default).content ∧
      (evict_least_important (insertOne (fun s => s)
        (expand (fun s => s) (initMind 2)
          (PyVal.list [PyVal.str "the cat sat", PyVal.str "the cat ran"]) 1)
        "a dog barked" 5)).associations =
        (insertOne (fun s => s)
          (expand (fun s => s) (initMind 2)
            (PyVal.list [PyVal.str "the cat sat", PyVal.str "the cat ran"]) 1)
          "a dog barked" 5).associations ∧
      (evict_least_important (insertOne (fun s => s)
        (expand (fun s => s) (initMind 2)
          (PyVal.list [PyVal.str "the cat sat", PyVal.str "the cat ran"]) 1)
        "a dog barked" 5)).importance_scores =
        (insertOne (fun s => s)
          (expand (fun s => s) (initMind 2)
            (PyVal.list [PyVal.str "the cat sat", PyVal.str "the cat ran"]) 1)
          "a dog barked" 5).importance_scores ∧
      (evict_least_important (insertOne (fun s => s)
        (expand (fun s => s) (initMind 2)
          (PyVal.list [PyVal.str "the cat sat", PyVal.str "the cat ran"]) 1)
        "a dog barked" 5)).thought_frequency =
        (insertOne (fun s => s)
          (expand (fun s => s) (initMind 2)
            (PyVal.list [PyVal.str "the cat sat", PyVal.str "the cat ran"]) 1)
          "a dog barked" 5).thought_frequency ∧
      (evict_least_important (insertOne (fun s => s)
        (expand (fun s => s) (initMind 2)
          (PyVal.list [PyVal.str "the cat sat", PyVal.str "the cat ran"]) 1)
        "a dog barked" 5)).evolution_history =
        (insertOne (fun s => s)
          (expand (fun s => s) (initMind 2)
            (PyVal.list [PyVal.str "the cat sat", PyVal.str "the cat ran"]) 1)
          "a dog barked" 5).evolution_history ∧
      (evict_least_important (insertOne (fun s => s)
        (expand (fun s => s) (initMind 2)
          (PyVal.list [PyVal.str "the cat sat", PyVal.str "the cat ran"]) 1)
        "a dog barked" 5)).capacity =
        (insertOne (fun s => s)
          (expand (fun s => s) (initMind 2)
            (PyVal.list [PyVal.str "the cat sat", PyVal.str "the cat ran"]) 1)
          "a dog barked" 5).capacity ∧
      (evict_least_important (insertOne (fun s => s)
        (expand (fun s => s) (initMind 2)
          (PyVal.list [PyVal.str "the cat sat", PyVal.str "the cat ran"]) 1)
        "a dog barked" 5)).clock =
        (insertOne (fun s => s)
          (expand (fun s => s) (initMind 2)
            (PyVal.list [PyVal.str "the cat sat", PyVal.str "the cat ran"]) 1)
          "a dog barked" 5).clock) :=
  ⟨(eviction_selects_first_min (initMind 2)).1 rfl,
   (eviction_selects_first_min (insertOne (fun s => s)
      (expand (fun s => s) (initMind 2)
        (PyVal.list [PyVal.str "the cat sat", PyVal.str "the cat ran"]) 1)
      "a dog barked" 5)).2 (by decide)⟩

/-! ### C4.  Association symmetry -/

/-- Predicate: `x` is recorded in the adjacency list stored under key `k`. -/
def keyMem (assoc : List (String × List String)) (k x : String) : Prop :=
  ∃ l, alistGet? assoc k = some l ∧ x ∈ l

/-- A present key has a value. -/
theorem alistHasKey_iff {l : List (String × α)} {k : String} :
    alistHasKey l k = true ↔ ∃ v, alistGet? l k = some v := by
  induction l with
  | nil => simp [alistHasKey, alistGet?]
  | cons p ps ih =>
    by_cases hp : p.1 == k
    · simp [alistHasKey, alistGet?, List.find?_cons, hp]
    · simp only [alistHasKey, alistGet?, List.any_cons, List.find?_cons,
        hp, Bool.false_or] at ih ⊢
      exact ih

/-- A `setdefault` never changes an existing binding. -/
theorem alistGet?_setdefault_of_some {l : List (String × α)}
    {k k' : String} {v : α} {w : α} (h : alistGet? l k = some w) :
    alistGet? (alistSetdefault l k' v) k = some w := by
  unfold alistSetdefault
  split
  · exact h
  · unfold alistGet? at h ⊢
    cases hf : l.find? (fun p => p.1 == k) with
    | none => rw [hf] at h; simp at h
    | some q => rw [hf] at h; simp [List.find?_append, hf, h]

/-- A `setdefault` installs the default when the key was absent. -/
theorem alistSetdefault_get_self {l : List (String × α)} {k : String}
    {v : α} (h : alistHasKey l k = false) :
    alistGet? (alistSetdefault l k v) k = some v := by
  unfold alistSetdefault
  rw [if_neg (by simp [h])]
  unfold alistGet?
  have hf : l.find? (fun p => p.1 == k) = none := by
    rw [List.find?_eq_none]
    intro p hp
    intro hpk
    have : alistHasKey l k = true := by
      unfold alistHasKey
      rw [List.any_eq_true]
      exact ⟨p, hp, hpk⟩
    rw [this] at h
    simp at h
  simp [List.find?_append, hf]

/-- A `setdefault` makes its key present. -/
theorem alistHasKey_setdefault_self (l : List (String × α)) (k : String)
    (v : α) : alistHasKey (alistSetdefault l k v) k = true := by
  unfold alistSetdefault
  split
  · assumption
  · simp [alistHasKey, List.any_append]

/-- A `setdefault` keeps other keys present. -/
theorem alistHasKey_setdefault_mono {l : List (String × α)}
    {k k' : String} {v : α} (h : alistHasKey l k' = true) :
    alistHasKey (alistSetdefault l k v) k' = true := by
  unfold alistSetdefault
  split
  · exact h
  · simp [alistHasKey, List.any_append]
    left
    simpa [alistHasKey] using h

/-- Unfolding `alistAppend` on a cons. -/
theorem alistAppend_cons {p : String × List β} {ps : List (String × List β)}
    {k : String} {x : β} :
    alistAppend (p :: ps) k x =
      (if p.1 == k then (p.1, p.2 ++ [x]) else p) :: alistAppend ps k x := rfl

/-- Appending under key `k` maps exactly that binding. -/
theorem alistGet?_append_self {l : List (String × List β)} {k : String}
    {x : β} :
    alistGet? (alistAppend l k x) k
      = (alistGet? l k).map (fun v => v ++ [x]) := by
  induction l with
  | nil => rfl
  | cons p ps ih =>
    rw [alistAppend_cons]
    by_cases hp : (p.1 == k) = true
    · rw [if_pos hp]
      simp [alistGet?, List.find?_cons, hp]
    · have hp' : (p.1 == k) = false := by simpa using hp
      rw [if_neg hp]
      simp only [alistGet?, List.find?_cons, hp'] at ih ⊢
      exact ih

/-- Appending under key `k` leaves other keys untouched. -/
theorem alistGet?_append_other {l : List (String × List β)}
    {k k' : String} {x : β} (h : ¬ (k' = k)) :
    alistGet? (alistAppend l k x) k' = alistGet? l k' := by
  induction l with
  | nil => rfl
  | cons p ps ih =>
    rw [alistAppend_cons]
    by_cases hp : (p.1 == k) = true
    · have hpk : (p.1 == k') = false := by
        have h1 : p.1 = k := by simpa using hp
        subst h1
        simp
        intro hc
        exact h hc.symm
      rw [if_pos hp]
      simp only [alistGet?, List.find?_cons, hpk] at ih ⊢
      exact ih
    · rw [if_neg hp]
      by_cases hpk : (p.1 == k') = true
      · simp [alistGet?, List.find?_cons, hpk]
      · have hpk' : (p.1 == k') = false := by simpa using hpk
        simp only [alistGet?, List.find?_cons, hpk'] at ih ⊢
        exact ih

/-- An `alistAppend` does not change which keys are present. -/
theorem alistHasKey_alistAppend {l : List (String × List β)}
    {k k' : String} {x : β} :
    alistHasKey (alistAppend l k x) k' = alistHasKey l k' := by
  unfold alistHasKey alistAppend
  rw [List.any_map]
  congr 1
  funext p
  by_cases hp : p.1 == k <;> simp [hp, Function.comp]

/-- Membership in an adjacency list survives appends. -/
theorem keyMem_append_mono {a : List (String × List String)}
    {k x k' : String} {y : String} (h : keyMem a k x) :
    keyMem (alistAppend a k' y) k x := by
  obtain ⟨l, hl, hx⟩ := h
  by_cases hk : k = k'
  · subst hk
    refine ⟨l ++ [y], ?_, List.mem_append_left _ hx⟩
    rw [alistGet?_append_self, hl]
    rfl
  · exact ⟨l, by rw [alistGet?_append_other hk]; exact hl, hx⟩

/-- Membership in an adjacency list survives `setdefault`. -/
theorem keyMem_setdefault_mono {a : List (String × List String)}
    {k x k' : String} {v : List String} (h : keyMem a k x) :
    keyMem (alistSetdefault a k' v) k x := by
  obtain ⟨l, hl, hx⟩ := h
  exact ⟨l, alistGet?_setdefault_of_some hl, hx⟩

/-- Appending `x` under a present key records `x` there. -/
theorem keyMem_append_self {a : List (String × List String)}
    {k x : String} (h : alistHasKey a k = true) :
    keyMem (alistAppend a k x) k x := by
  obtain ⟨v, hv⟩ := alistHasKey_iff.mp h
  refine ⟨v ++ [x], ?_, by simp⟩
  rw [alistGet?_append_self, hv]
  rfl

/-- Unfolded form of `assocStep`. -/
theorem assocStep_eq (words : List String) (key : String)
    (acc : List (String × List String) × List String)
    (e : ThoughtEntry) :
    assocStep words key acc e =
      if interCount words (wordSet e.content) ≠ 0 then
        if jaccardStrength words (wordSet e.content) > 1/10 then
          (alistAppend
             (alistSetdefault (alistAppend acc.1 key e.content)
               e.content [])
             e.content key,
           acc.2 ++ [e.id])
        else acc
      else acc := rfl

/-- One association step never erases a recorded link. -/
theorem assocStep_keyMem_mono {words : List String} {key : String}
    {acc : List (String × List String) × List String}
    {e : ThoughtEntry} {k x : String} (h : keyMem acc.1 k x) :
    keyMem (assocStep words key acc e).1 k x := by
  rw [assocStep_eq]
  split
  · split
    · exact keyMem_append_mono (keyMem_setdefault_mono (keyMem_append_mono h))
    · exact h
  · exact h

/-- One association step never drops a key. -/
theorem assocStep_hasKey_mono {words : List String} {key : String}
    {acc : List (String × List String) × List String}
    {e : ThoughtEntry} {k : String} (h : alistHasKey acc.1 k = true) :
    alistHasKey (assocStep words key acc e).1 k = true := by
  rw [assocStep_eq]
  split
  · split
    · rw [alistHasKey_alistAppend]
      exact alistHasKey_setdefault_mono (by rw [alistHasKey_alistAppend]; exact h)
    · exact h
  · exact h

/-- One association step never removes an id from the new entry. -/
theorem assocStep_snd_mono {words : List String} {key : String}
    {acc : List (String × List String) × List String}
    {e : ThoughtEntry} {x : String} (h : x ∈ acc.2) :
    x ∈ (assocStep words key acc e).2 := by
  rw [assocStep_eq]
  split
  · split
    · exact List.mem_append_left _ h
    · exact h
  · exact h

/-- One association step adds at most the compared entry's id. -/
theorem assocStep_snd_sub {words : List String} {key : String}
    {acc : List (String × List String) × List String}
    {e : ThoughtEntry} {x : String}
    (h : x ∈ (assocStep words key acc e).2) : x ∈ acc.2 ∨ x = e.id := by
  rw [assocStep_eq] at h
  split at h
  · split at h
    · rcases List.mem_append.mp h with h1 | h1
      · exact Or.inl h1
      · exact Or.inr (by simpa using h1)
    · exact Or.inl h
  · exact Or.inl h

/-- The active case of an association step: above the Jaccard
threshold, both adjacency directions and the id link are recorded. -/
theorem assocStep_active {words : List String} {key : String}
    {acc : List (String × List String) × List String} {e : ThoughtEntry}
    (hkey : alistHasKey acc.1 key = true)
    (hj : jaccardStrength words (wordSet e.content) > 1/10) :
    keyMem (assocStep words key acc e).1 key e.content ∧
    keyMem (assocStep words key acc e).1 e.content key ∧
    e.id ∈ (assocStep words key acc e).2 := by
  have hov : ¬ (interCount words (wordSet e.content) = 0) := by
    intro h0
    rw [jaccardStrength, h0] at hj
    norm_num at hj
  rw [assocStep_eq, if_pos hov, if_pos hj]
  refine ⟨?_, ?_, by simp⟩
  · exact keyMem_append_mono
      (keyMem_setdefault_mono (keyMem_append_self hkey))
  · apply keyMem_append_self
    apply alistHasKey_setdefault_self

/-- Recorded links survive the whole association fold. -/
theorem foldl_assocStep_keyMem (words : List String) (key : String)
    (es : List ThoughtEntry) :
    ∀ acc k x, keyMem acc.1 k x →
      keyMem ((es.foldl (assocStep words key) acc)).1 k x := by
  induction es with
  | nil => intro acc k x h; exact h
  | cons e es ih =>
    intro acc k x h
    exact ih _ k x (assocStep_keyMem_mono h)

/-- Present keys survive the whole association fold. -/
theorem foldl_assocStep_hasKey (words : List String) (key : String)
    (es : List ThoughtEntry) :
    ∀ acc k, alistHasKey acc.1 k = true →
      alistHasKey ((es.foldl (assocStep words key) acc)).1 k = true := by
  induction es with
  | nil => intro acc k h; exact h
  | cons e es ih =>
    intro acc k h
    exact ih _ k (assocStep_hasKey_mono h)

/-- Ids appended to the new entry survive the whole fold. -/
theorem foldl_assocStep_snd_mem (words : List String) (key : String)
    (es : List ThoughtEntry) :
    ∀ acc x, x ∈ acc.2 → x ∈ ((es.foldl (assocStep words key) acc)).2 := by
  induction es with
  | nil => intro acc x h; exact h
  | cons e es ih =>
    intro acc x h
    exact ih _ x (assocStep_snd_mono h)

/-- Every id appended by the fold comes from a compared entry. -/
theorem foldl_assocStep_snd_sub (words : List String) (key : String)
    (es : List ThoughtEntry) :
    ∀ acc x, x ∈ ((es.foldl (assocStep words key) acc)).2 →
      x ∈ acc.2 ∨ ∃ e, e ∈ es ∧ x = e.id := by
  induction es with
  | nil => intro acc x h; exact Or.inl h
  | cons e es ih =>
    intro acc x h
    rcases ih _ x h with h1 | ⟨e1, he1, hx1⟩
    · rcases assocStep_snd_sub h1 with h2 | h2
      · exact Or.inl h2
      · exact Or.inr ⟨e, List.mem_cons_self e es, h2⟩
    · exact Or.inr ⟨e1, List.mem_cons_of_mem e he1, hx1⟩

/-- The association map and last entry produced by `insertOne`. -/
theorem insertOne_assoc_eq (hash : String → String) (m : InfiniteMind)
    (t : String) (imp : ℚ) :
    (insertOne hash m t imp).associations =
      (m.thoughts.foldl (assocStep (wordSet t) t)
        (alistSetdefault m.associations t [], [])).1 ∧
    (insertOne hash m t imp).thoughts.getLast? =
      some { content := t, importance := imp, timestamp := m.clock,
             id := hash t, depth := 0,
             associations := (m.thoughts.foldl (assocStep (wordSet t) t)
               (alistSetdefault m.associations t [], [])).2 } := by
  constructor <;>
    simp [insertOne, build_associations, List.getLast?_concat,
      List.dropLast_concat]

/-- C4: if `A` is stored when content `B` is inserted and their word
sets clear the 0.1 Jaccard threshold, then after the insertion pass
`A`'s content is in the adjacency list keyed by `B` and vice versa, and
`A`'s id was appended to the new entry's `associations`; every id in
that list stems from a previously stored entry, so a new entry is never
compared with itself. -/
theorem association_symmetry (hash : String → String) (m : InfiniteMind)
    (A : ThoughtEntry) (B : String) (imp : ℚ)
    (hA : A ∈ m.thoughts)
    (hj : jaccardStrength (wordSet B) (wordSet A.content) > 1/10) :
    keyMem (insertOne hash m B imp).associations B A.content ∧
    keyMem (insertOne hash m B imp).associations A.content B ∧
    (∃ e, (insertOne hash m B imp).thoughts.getLast? = some e ∧
      e.content = B ∧ A.id ∈ e.associations ∧
      (∀ x, x ∈ e.associations → ∃ P, P ∈ m.thoughts ∧ x = P.id)) := by
  obtain ⟨s, t2, hsplit⟩ := List.append_of_mem hA
  obtain ⟨hassoc, hlast⟩ := insertOne_assoc_eq hash m B imp
  have hfold : m.thoughts.foldl (assocStep (wordSet B) B)
      (alistSetdefault m.associations B [], []) =
      t2.foldl (assocStep (wordSet B) B)
        (assocStep (wordSet B) B
          (s.foldl (assocStep (wordSet B) B)
            (alistSetdefault m.associations B [], [])) A) := by
    rw [hsplit, List.foldl_append, List.foldl_cons]
  have hkey0 : alistHasKey
      (alistSetdefault m.associations B ([] : List String), ([] : List String)).1
      B = true := alistHasKey_setdefault_self _ _ _
  have hkey1 := foldl_assocStep_hasKey (wordSet B) B s _ B hkey0
  obtain ⟨hm1, hm2, hid⟩ := assocStep_active hkey1 hj
  refine ⟨?_, ?_, ?_⟩
  · rw [hassoc, hfold]
    exact foldl_assocStep_keyMem _ _ t2 _ _ _ hm1
  · rw [hassoc, hfold]
    exact foldl_assocStep_keyMem _ _ t2 _ _ _ hm2
  · refine ⟨_, hlast, rfl, ?_, ?_⟩
    · rw [hfold]
      exact foldl_assocStep_snd_mem _ _ t2 _ _ hid
    · intro x hx
      rw [hfold] at hx
      rcases foldl_assocStep_snd_sub _ _ t2 _ x hx with h1 | ⟨e1, he1, hx1⟩
      · rcases assocStep_snd_sub h1 with h2 | h2
        · rcases foldl_assocStep_snd_sub _ _ s _ x h2 with h3 | ⟨e2, he2, hx2⟩
          · simp at h3
          · exact ⟨e2, by rw [hsplit]; exact List.mem_append_left _ he2, hx2⟩
        · exact ⟨A, hA, h2⟩
      · refine ⟨e1, ?_, hx1⟩
        rw [hsplit]
        exact List.mem_append_right _ (List.mem_cons_of_mem _ he1)

unseal Rat.mul Rat.inv Rat.add Rat.sub in
/-- C4 (witness): inserting "the cat ran" after "the cat sat"
(Jaccard 1/2) records both adjacency directions and the id link. -/
theorem association_symmetry_witness :
    keyMem (insertOne (fun s => s)
        (expand (fun s => s) (initMind 10) (PyVal.str "the cat sat") 1)
        "the cat ran" 1).associations "the cat ran" "the cat sat" ∧
    keyMem (insertOne (fun s => s)
        (expand (fun s => s) (initMind 10) (PyVal.str "the cat sat") 1)
        "the cat ran" 1).associations "the cat sat" "the cat ran" ∧
    (∃ e, (insertOne (fun s => s)
        (expand (fun s => s) (initMind 10) (PyVal.str "the cat sat") 1)
        "the cat ran" 1).thoughts.getLast? = some e ∧
      e.content = "the cat ran" ∧
      (⟨"the cat sat", 1, 0, "the cat sat", 0, []⟩ : ThoughtEntry).id
        ∈ e.associations ∧
      (∀ x, x ∈ e.associations → ∃ P,
        P ∈ (expand (fun s => s) (initMind 10)
          (PyVal.str "the cat sat") 1).thoughts ∧ x = P.id)) :=
  association_symmetry (fun s => s)
    (expand (fun s => s) (initMind 10) (PyVal.str "the cat sat") 1)
    ⟨"the cat sat", 1, 0, "the cat sat", 0, []⟩ "the cat ran" 1
    (by decide) (by decide)

/-! ### C2.  Recall contract -/

/-- The comparator is transitive. -/
theorem scoredLE_trans (a b c : Scored) :
    scoredLE a b → scoredLE b c → scoredLE a c := by
  simp only [scoredLE, decide_eq_true_eq]
  exact fun h1 h2 => le_trans h2 h1

/-- The comparator is total. -/
theorem scoredLE_total (a b : Scored) : scoredLE a b || scoredLE b a := by
  simp only [scoredLE, Bool.or_eq_true, decide_eq_true_eq]
  exact le_total b.relevance a.relevance

/-- Stability of the relevance sort: entries of any fixed relevance keep
their original (store) order. -/
theorem mergeSort_filter_ties (l : List Scored) (r : ℚ) :
    ((l.mergeSort scoredLE).filter (fun s => decide (s.relevance = r))) =
      l.filter (fun s => decide (s.relevance = r)) := by
  have hpair : (l.filter (fun s => decide (s.relevance = r))).Pairwise
      (fun a b => scoredLE a b) := by
    apply List.pairwise_of_forall_mem_list
    intro a ha b hb
    have ha2 := (List.mem_filter.mp ha).2
    have hb2 := (List.mem_filter.mp hb).2
    simp only [decide_eq_true_eq] at ha2 hb2
    simp [scoredLE, ha2, hb2]
  have hsub : List.Sublist (l.filter (fun s => decide (s.relevance = r)))
      (l.mergeSort scoredLE) :=
    List.sublist_mergeSort scoredLE_trans scoredLE_total hpair
      (List.filter_sublist l)
  have hsub2 : List.Sublist (l.filter (fun s => decide (s.relevance = r)))
      ((l.mergeSort scoredLE).filter (fun s => decide (s.relevance = r))) := by
    have h0 : (l.filter (fun s => decide (s.relevance = r))).filter
        (fun s => decide (s.relevance = r)) =
        l.filter (fun s => decide (s.relevance = r)) :=
      List.filter_eq_self.mpr (fun a ha => (List.mem_filter.mp ha).2)
    have := hsub.filter (fun s => decide (s.relevance = r))
    rwa [h0] at this
  have hperm : List.Perm ((l.mergeSort scoredLE).filter
      (fun s => decide (s.relevance = r)))
      (l.filter (fun s => decide (s.relevance = r))) :=
    (List.mergeSort_perm l scoredLE).filter _
  exact (hsub2.eq_of_length hperm.length_eq.symm).symm

/-- The lower-cased word set of a string, as a finite set (used by the
specification-side description of recall). -/
def wordFinset (s : String) : Finset String :=
  (pySplit (pyLower s)).toFinset

/-- The list-level overlap count of the code agrees with the set-level
intersection cardinality of the specification. -/
theorem interCount_eq_card (a b : String) :
    interCount (wordSet a) (wordSet b)
      = (wordFinset a ∩ wordFinset b).card := by
  have hnodup : (wordSet a).Nodup := List.nodup_dedup _
  have hfn : ((wordSet a).filter (fun w => decide (w ∈ wordSet b))).Nodup :=
    hnodup.filter _
  rw [interCount, ← List.toFinset_card_of_nodup hfn]
  congr 1
  ext w
  simp [wordFinset, wordSet, List.mem_dedup, List.mem_filter,
    Finset.mem_inter]

/-- The recall match list, phrased as the specification words it:
stored entries whose lower-cased word set has nonzero intersection with
the query's word set, paired with `overlap * importance`. -/
def specMatches (m : InfiniteMind) (q : String) : List Scored :=
  m.thoughts.filterMap (fun t =>
    if (wordFinset q ∩ wordFinset t.content).card = 0 then none
    else some ⟨t, ((wordFinset q ∩ wordFinset t.content).card : ℚ)
      * t.importance⟩)

/-- The code's match list is the specification's match list. -/
theorem recallMatches_eq_spec (m : InfiniteMind) (q : String) :
    recallMatches m q = specMatches m q := by
  simp only [recallMatches, specMatches]
  congr 1
  funext t
  rw [interCount_eq_card]
  by_cases h : (wordFinset q ∩ wordFinset t.content).card = 0
  · simp [h]
  · simp [h, Nat.pos_of_ne_zero h]

/-- Elements of the match list are stored entries scored by
overlap times importance. -/
theorem recallMatches_sound {m : InfiniteMind} {q : String} {s : Scored}
    (h : s ∈ recallMatches m q) :
    s.thought ∈ m.thoughts ∧
    interCount (wordSet q) (wordSet s.thought.content) ≠ 0 ∧
    s.relevance = (interCount (wordSet q)
      (wordSet s.thought.content) : ℚ) * s.thought.importance := by
  simp only [recallMatches] at h
  rw [List.mem_filterMap] at h
  obtain ⟨t, ht, hf⟩ := h
  split at hf
  · next hc =>
    cases hf
    refine ⟨ht, ?_, rfl⟩
    show interCount (wordSet q) (wordSet t.content) ≠ 0
    omega
  · simp at hf

/-- C2: `recall` returns the first `top_k` elements of the stable
descending relevance sort of exactly the match list described by the
spec: a permutation of the matches, with non-increasing relevance and
ties kept in store order. -/
theorem recall_contract (m : InfiniteMind) (q : String) (k : ℕ) :
    ∃ S : List Scored,
      «recall» m q (k : ℤ) = S.take k ∧
      S.Perm (recallMatches m q) ∧
      S.Pairwise (fun a b => b.relevance ≤ a.relevance) ∧
      (∀ r : ℚ, S.filter (fun s => decide (s.relevance = r)) =
        (recallMatches m q).filter (fun s => decide (s.relevance = r))) ∧
      recallMatches m q = specMatches m q := by
  refine ⟨(recallMatches m q).mergeSort scoredLE, ?_, ?_, ?_, ?_, ?_⟩
  · simp [«recall», pySlice, Int.natCast_nonneg]
  · exact List.mergeSort_perm _ _
  · have := @List.sorted_mergeSort Scored scoredLE scoredLE_trans
      scoredLE_total (recallMatches m q)
    exact this.imp (fun h => by simpa [scoredLE] using h)
  · intro r
    exact mergeSort_filter_ties _ r
  · exact recallMatches_eq_spec m q

/-! ### C7.  Recall top_k degenerate bounds -/

unseal Rat.mul Rat.inv Rat.add Rat.sub List.merge List.mergeSort in
/-- C7 (counterexample): with two matching entries, `top_k = -1` does
*not* yield an empty result — Python's `scored[:-1]` drops only the
last match, so one entry is returned. -/
theorem recall_topk_cex :
    «recall» (expand (fun s => s) (initMind 10)
      (PyVal.list [PyVal.str "a", PyVal.str "a"]) 1) "a" (-1) ≠ [] := by
  decide

/-- C7 (amended): `top_k = 0` yields an empty result, and a negative
`top_k` follows Python slice semantics — it drops the last `|top_k|`
matches (so it is empty only when `|top_k|` is at least the number of
matches); `top_k` at least the number of matching entries yields all
matching entries (the full sorted match list). -/
theorem recall_topk_amended (m : InfiniteMind) (q : String) :
    «recall» m q 0 = [] ∧
    (∀ k : ℤ, k < 0 → («recall» m q k).length =
      (recallMatches m q).length - (-k).toNat) ∧
    (∀ k : ℤ, ((recallMatches m q).length : ℤ) ≤ k →
      «recall» m q k = (recallMatches m q).mergeSort scoredLE ∧
      («recall» m q k).length = (recallMatches m q).length) := by
  refine ⟨?_, ?_, ?_⟩
  · simp [«recall», pySlice]
  · intro k hk
    rw [«recall», pySlice, if_neg (by omega)]
    rw [List.length_take, List.length_mergeSort]
    omega
  · intro k hk
    have hk0 : (0 : ℤ) ≤ k := le_trans (Int.natCast_nonneg _) hk
    have hlen : ((recallMatches m q).mergeSort scoredLE).length ≤ k.toNat := by
      rw [List.length_mergeSort]
      omega
    rw [«recall», pySlice, if_pos hk0, List.take_of_length_le hlen]
    exact ⟨rfl, List.length_mergeSort _⟩

unseal Rat.mul Rat.inv Rat.add Rat.sub List.merge List.mergeSort in
/-- C7 (witness): the amended statement at a concrete two-match
store. -/
theorem recall_topk_amended_witness :
    «recall» (expand (fun s => s) (initMind 10)
      (PyVal.list [PyVal.str "a", PyVal.str "a"]) 1) "a" 0 = [] ∧
    («recall» (expand (fun s => s) (initMind 10)
      (PyVal.list [PyVal.str "a", PyVal.str "a"]) 1) "a" (-1)).length =
      (recallMatches (expand (fun s => s) (initMind 10)
        (PyVal.list [PyVal.str "a", PyVal.str "a"]) 1) "a").length - 1 ∧
    «recall» (expand (fun s => s) (initMind 10)
      (PyVal.list [PyVal.str "a", PyVal.str "a"]) 1) "a" 5 =
      (recallMatches (expand (fun s => s) (initMind 10)
        (PyVal.list [PyVal.str "a", PyVal.str "a"]) 1) "a").mergeSort
        scoredLE := by
  refine ⟨(recall_topk_amended _ "a").1, ?_,
    ((recall_topk_amended _ "a").2.2 5 (by decide)).1⟩
  have h := (recall_topk_amended (expand (fun s => s) (initMind 10)
    (PyVal.list [PyVal.str "a", PyVal.str "a"]) 1) "a").2.1 (-1) (by decide)
  simpa using h

/-! ### C5.  Novelty bounds -/

/-- Everything returned by `recall` is one of the scored matches. -/
theorem recall_mem_matches {m : InfiniteMind} {q : String} {k : ℤ}
    {s : Scored} (h : s ∈ «recall» m q k) : s ∈ recallMatches m q := by
  rw [«recall», pySlice] at h
  split at h <;>
    exact List.mem_mergeSort.mp ((List.take_sublist _ _).mem h)

unseal Rat.mul Rat.inv Rat.add Rat.sub List.merge List.mergeSort in
/-- C5 (counterexample): importances are arbitrary caller-supplied
floats; after ingesting "a" with importance `-1`, the novelty of "a" is
`max(0, 1 - (-1)) = 2`, so `detect_novelty` is *not* bounded by 1 over
every store state. -/
theorem novelty_cex :
    ¬ (detect_novelty (expand (fun s => s) (initMind 10)
        (PyVal.str "a") (-1)) "a" ≤ 1) := by
  decide

/-- C5 (amended): `detect_novelty` is always nonnegative, returns
exactly 1 on an empty store or when recall finds no match, and
otherwise returns `max 0 (1 - topRelevance)`; the upper bound
`detect_novelty ≤ 1` holds under the additional hypothesis that all
stored importances are nonnegative (which the counterexample shows is
necessary). -/
theorem novelty_bounds_amended (m : InfiniteMind) (thought : String) :
    0 ≤ detect_novelty m thought ∧
    (m.thoughts = [] → detect_novelty m thought = 1) ∧
    («recall» m thought 1 = [] → detect_novelty m thought = 1) ∧
    (∀ top rest, «recall» m thought 1 = top :: rest →
      detect_novelty m thought = max 0 (1 - top.relevance)) ∧
    ((∀ e, e ∈ m.thoughts → 0 ≤ e.importance) →
      detect_novelty m thought ≤ 1) := by
  by_cases hemp : m.thoughts.isEmpty
  · have hval : detect_novelty m thought = 1 := by
      rw [detect_novelty, if_pos hemp]
    have hnil := List.isEmpty_iff.mp hemp
    refine ⟨by rw [hval]; norm_num, fun _ => hval, fun _ => hval, ?_,
      fun _ => by rw [hval]⟩
    intro top rest h
    have hrec : «recall» m thought 1 = [] := by
      simp [«recall», recallMatches, hnil, pySlice]
    rw [hrec] at h
    cases h
  · have hval : detect_novelty m thought =
        match «recall» m thought 1 with
        | [] => 1
        | top :: _ => max 0 (1 - top.relevance) := by
      rw [detect_novelty, if_neg hemp]
    have hne : m.thoughts ≠ [] := by
      simpa [List.isEmpty_iff] using hemp
    cases hr : «recall» m thought 1 with
    | nil =>
      rw [hr] at hval
      have hv1 : detect_novelty m thought = 1 := by rw [hval]
      refine ⟨by rw [hv1]; norm_num, fun _ => hv1, fun _ => hv1,
        ?_, fun _ => by rw [hv1]⟩
      intro top rest h
      simp at h
    | cons top rest =>
      rw [hr] at hval
      have hv2 : detect_novelty m thought = max 0 (1 - top.relevance) := by
        rw [hval]
      refine ⟨by rw [hv2]; exact le_max_left _ _,
        fun h => absurd h hne, ?_, ?_, ?_⟩
      · intro h
        simp at h
      · intro top2 rest2 h
        injection h with ha hb
        subst ha
        exact hv2
      · intro himp
        have hmem : top ∈ «recall» m thought 1 := by
          rw [hr]
          exact List.mem_cons_self _ _
        obtain ⟨hth, hov, hrel⟩ := recallMatches_sound
          (recall_mem_matches hmem)
        have h0 : 0 ≤ top.relevance := by
          rw [hrel]
          exact mul_nonneg (by positivity) (himp _ hth)
        rw [hv2]
        apply max_le (by norm_num)
        linarith

unseal Rat.mul Rat.inv Rat.add Rat.sub List.merge List.mergeSort in
/-- C5 (witness): empty store gives 1; no-match store gives 1; a
matching store of nonnegative importance stays within the bounds and
equals the `max 0 (1 - topRelevance)` formula. -/
theorem novelty_bounds_amended_witness :
    detect_novelty (initMind 5) "x" = 1 ∧
    detect_novelty (expand (fun s => s) (initMind 10)
      (PyVal.str "b") 1) "zzz" = 1 ∧
    (0 ≤ detect_novelty (expand (fun s => s) (initMind 10)
      (PyVal.str "a") 1) "a" ∧
     detect_novelty (expand (fun s => s) (initMind 10)
       (PyVal.str "a") 1) "a" ≤ 1) ∧
    detect_novelty (expand (fun s => s) (initMind 10)
      (PyVal.str "a") 1) "a" =
      max 0 (1 - (1 : ℚ)) :=
  ⟨(novelty_bounds_amended (initMind 5) "x").2.1 rfl,
   (novelty_bounds_amended (expand (fun s => s) (initMind 10)
     (PyVal.str "b") 1) "zzz").2.2.1 (by decide),
   ⟨(novelty_bounds_amended (expand (fun s => s) (initMind 10)
      (PyVal.str "a") 1) "a").1,
    (novelty_bounds_amended (expand (fun s => s) (initMind 10)
      (PyVal.str "a") 1) "a").2.2.2.2 (by decide)⟩,
   (novelty_bounds_amended (expand (fun s => s) (initMind 10)
     (PyVal.str "a") 1) "a").2.2.2.1 ⟨⟨"a", 1, 0, "a", 0, []⟩, 1⟩ []
     (by decide)⟩

/-! ### C6.  Evolve merge correctness -/

/-- Invariant proof for the case-insensitive dedup loop of
`evolve_thought`: walking the remaining words with a kept list `acc`
(whose lower-cased forms are the seen set) yields the unique sublist
that keeps exactly the first case-insensitive occurrence of each word,
with the first-seen casing. -/
theorem ciDedupAux_spec (ws : List String) : ∀ (processed acc : List String),
    List.Sublist acc processed →
    (∀ w, w ∈ processed → ∃ v, v ∈ acc ∧ pyLower v = pyLower w) →
    (∀ w, w ∈ acc →
      processed.find? (fun v => pyLower v == pyLower w) = some w) →
    acc.Pairwise (fun x y => pyLower x ≠ pyLower y) →
    (List.Sublist (ciDedupAux ws (acc.map pyLower) acc) (processed ++ ws) ∧
     (∀ w, w ∈ processed ++ ws →
       ∃ v, v ∈ ciDedupAux ws (acc.map pyLower) acc ∧
         pyLower v = pyLower w) ∧
     (∀ w, w ∈ ciDedupAux ws (acc.map pyLower) acc →
       (processed ++ ws).find? (fun v => pyLower v == pyLower w) = some w) ∧
     (ciDedupAux ws (acc.map pyLower) acc).Pairwise
       (fun x y => pyLower x ≠ pyLower y)) := by
  induction ws with
  | nil =>
    intro processed acc h1 h2 h3 h4
    simp only [ciDedupAux, List.append_nil]
    exact ⟨h1, h2, h3, h4⟩
  | cons w ws ih =>
    intro processed acc h1 h2 h3 h4
    by_cases hseen : pyLower w ∈ acc.map pyLower
    · have hstep : ciDedupAux (w :: ws) (acc.map pyLower) acc =
          ciDedupAux ws (acc.map pyLower) acc := by
        simp only [ciDedupAux, if_pos hseen]
      have h1' : List.Sublist acc (processed ++ [w]) :=
        h1.trans (List.sublist_append_left processed [w])
      have h2' : ∀ u, u ∈ processed ++ [w] →
          ∃ v, v ∈ acc ∧ pyLower v = pyLower u := by
        intro u hu
        rcases List.mem_append.mp hu with hu1 | hu1
        · exact h2 u hu1
        · have : u = w := by simpa using hu1
          subst this
          obtain ⟨v, hv, hveq⟩ := List.mem_map.mp hseen
          exact ⟨v, hv, hveq⟩
      have h3' : ∀ u, u ∈ acc →
          (processed ++ [w]).find? (fun v => pyLower v == pyLower u)
            = some u := by
        intro u hu
        rw [List.find?_append, h3 u hu]
        rfl
      have r := ih (processed ++ [w]) acc h1' h2' h3' h4
      simp only [List.append_assoc, List.singleton_append] at r
      rw [hstep]
      exact r
    · have hstep : ciDedupAux (w :: ws) (acc.map pyLower) acc =
          ciDedupAux ws ((acc ++ [w]).map pyLower) (acc ++ [w]) := by
        simp only [ciDedupAux, if_neg hseen, List.map_append,
          List.map_cons, List.map_nil]
      have h1' : List.Sublist (acc ++ [w]) (processed ++ [w]) :=
        h1.append (List.Sublist.refl [w])
      have hnew : ∀ u, u ∈ processed → pyLower u ≠ pyLower w := by
        intro u hu hc
        obtain ⟨v, hv, hveq⟩ := h2 u hu
        exact hseen (List.mem_map.mpr ⟨v, hv, by rw [hveq, hc]⟩)
      have h2' : ∀ u, u ∈ processed ++ [w] →
          ∃ v, v ∈ acc ++ [w] ∧ pyLower v = pyLower u := by
        intro u hu
        rcases List.mem_append.mp hu with hu1 | hu1
        · obtain ⟨v, hv, hveq⟩ := h2 u hu1
          exact ⟨v, List.mem_append_left _ hv, hveq⟩
        · have hw : u = w := by simpa using hu1
          exact ⟨w, List.mem_append_right _ (by simp), by rw [hw]⟩
      have h3' : ∀ u, u ∈ acc ++ [w] →
          (processed ++ [w]).find? (fun v => pyLower v == pyLower u)
            = some u := by
        intro u hu
        rcases List.mem_append.mp hu with hu1 | hu1
        · rw [List.find?_append, h3 u hu1]
          rfl
        · have hw : u = w := by simpa using hu1
          have hnone : processed.find? (fun v => pyLower v == pyLower w)
              = none := by
            rw [List.find?_eq_none]
            intro v hv
            simpa using hnew v hv
          rw [hw, List.find?_append, hnone]
          simp
      have h4' : (acc ++ [w]).Pairwise (fun x y => pyLower x ≠ pyLower y) := by
        rw [List.pairwise_append]
        refine ⟨h4, by simp, ?_⟩
        intro x hx y hy
        have : y = w := by simpa using hy
        subst this
        intro hc
        exact hseen (List.mem_map.mpr ⟨x, hx, hc⟩)
      have r := ih (processed ++ [w]) (acc ++ [w]) h1' h2' h3' h4'
      simp only [List.append_assoc, List.singleton_append] at r
      rw [hstep]
      exact r

/-- The dedup loop keeps exactly the first case-insensitive occurrence
of each token, in order, with its original casing, and yields no two
case-insensitively equal tokens. -/
theorem ciDedup_spec (ws : List String) :
    List.Sublist (ciDedup ws) ws ∧
    (∀ w, w ∈ ws → ∃ v, v ∈ ciDedup ws ∧ pyLower v = pyLower w) ∧
    (∀ w, w ∈ ciDedup ws →
      ws.find? (fun v => pyLower v == pyLower w) = some w) ∧
    (ciDedup ws).Pairwise (fun x y => pyLower x ≠ pyLower y) := by
  have h := ciDedupAux_spec ws [] [] (by simp) (by simp) (by simp)
    (by simp)
  simpa [ciDedup] using h

/-- C6: when `evolve_thought` merges, its output is the tokens of the
input thought followed by the unseen tokens of the top match — a
sublist of the concatenated token lists keeping exactly the first
case-insensitive occurrence of every token with its original casing —
joined by single spaces; no two kept tokens are case-insensitively
equal. -/
theorem evolve_merge_tokens (m : InfiniteMind) (thought : String)
    (depth : ℤ) (top : Scored) (rest : List Scored)
    (h1 : depth < MAX_THOUGHT_DEPTH)
    (h2 : «recall» m thought 3 = top :: rest) :
    (evolve_thought m thought depth).2 =
      " ".intercalate
        (ciDedup (pySplit thought ++ pySplit top.thought.content)) ∧
    List.Sublist (ciDedup (pySplit thought ++ pySplit top.thought.content))
      (pySplit thought ++ pySplit top.thought.content) ∧
    (∀ w, w ∈ pySplit thought ++ pySplit top.thought.content →
      ∃ v, v ∈ ciDedup (pySplit thought ++ pySplit top.thought.content) ∧
        pyLower v = pyLower w) ∧
    (∀ w, w ∈ ciDedup (pySplit thought ++ pySplit top.thought.content) →
      (pySplit thought ++ pySplit top.thought.content).find?
        (fun v => pyLower v == pyLower w) = some w) ∧
    (ciDedup (pySplit thought ++ pySplit top.thought.content)).Pairwise
      (fun x y => pyLower x ≠ pyLower y) := by
  obtain ⟨hs, hc, hf, hp⟩ :=
    ciDedup_spec (pySplit thought ++ pySplit top.thought.content)
  refine ⟨?_, hs, hc, hf, hp⟩
  simp [evolve_thought, not_le.mpr h1, h2]

unseal Rat.mul Rat.inv Rat.add Rat.sub List.merge List.mergeSort in
/-- C6 (witness): the spec scenario — evolving "red apple pie" against
a store holding "apple pie recipe" merges to
"red apple pie recipe". -/
theorem evolve_merge_tokens_witness :
    (evolve_thought (expand (fun s => s) (initMind 10)
        (PyVal.str "apple pie recipe") 1) "red apple pie" 0).2 =
      " ".intercalate
        (ciDedup (pySplit "red apple pie" ++ pySplit "apple pie recipe")) ∧
    (ciDedup (pySplit "red apple pie" ++
      pySplit "apple pie recipe")).Pairwise
      (fun x y => pyLower x ≠ pyLower y) := by
  have h := evolve_merge_tokens (expand (fun s => s) (initMind 10)
    (PyVal.str "apple pie recipe") 1) "red apple pie" 0
    ⟨⟨"apple pie recipe", 1, 0, "apple pie recipe", 0, []⟩, 2⟩ []
    (by decide) (by decide)
  exact ⟨h.1, h.2.2.2.2⟩

/-! ### C10.  Only lists are batches -/

/-- C10: a non-list argument to `expand` (strings, numbers, tuples) is
treated as a single item — exactly one raw string and one entry whose
content is the string form of the whole value are added (when no
eviction interferes) — while a list argument is iterated element by
element. -/
theorem expand_list_dispatch (hash : String → String) (m : InfiniteMind)
    (v : PyVal) (imp : ℚ) :
    (v.isList = false →
      expand hash m v imp = expandOne hash m (pyStr v) imp ∧
      ((m.thoughts.length : ℤ) < m.capacity →
        ∃ e, (expand hash m v imp).thoughts = m.thoughts ++ [e] ∧
          e.content = pyStr v ∧
          (expand hash m v imp).raw_thoughts
            = m.raw_thoughts ++ [pyStr v])) ∧
    (∀ xs, v = PyVal.list xs →
      expand hash m v imp =
        xs.foldl (fun acc t => expandOne hash acc (pyStr t) imp) m) := by
  constructor
  · intro hv
    have hexp : expand hash m v imp = expandOne hash m (pyStr v) imp := by
      cases v <;> simp_all [expand, PyVal.isList]
    refine ⟨hexp, ?_⟩
    intro hroom
    obtain ⟨ids, hth, hraw, -, hcap, -, -⟩ := insertOne_spec hash m (pyStr v) imp
    have hlen := insertOne_length hash m (pyStr v) imp
    have hcond : ¬ (((insertOne hash m (pyStr v) imp).thoughts.length : ℤ) >
        (insertOne hash m (pyStr v) imp).capacity) := by
      rw [hlen, hcap]
      omega
    have he : expandOne hash m (pyStr v) imp = insertOne hash m (pyStr v) imp := by
      rw [expandOne_eq, if_neg hcond]
    rw [hexp, he]
    exact ⟨_, hth, rfl, hraw⟩
  · intro xs hxs
    subst hxs
    rfl

unseal Rat.mul Rat.inv Rat.add Rat.sub in
/-- C10 (witness): a tuple (a non-list sequence) is ingested as one
item whose content is its Python string form; a list is folded
element-wise. -/
theorem expand_list_dispatch_witness :
    (expand (fun s => s) (initMind 10)
        (PyVal.tuple [PyVal.str "b", PyVal.str "c"]) 1
      = expandOne (fun s => s) (initMind 10)
          (pyStr (PyVal.tuple [PyVal.str "b", PyVal.str "c"])) 1) ∧
    (∃ e, (expand (fun s => s) (initMind 10)
        (PyVal.tuple [PyVal.str "b", PyVal.str "c"]) 1).thoughts
          = (initMind 10).thoughts ++ [e] ∧
      e.content = pyStr (PyVal.tuple [PyVal.str "b", PyVal.str "c"]) ∧
      (expand (fun s => s) (initMind 10)
        (PyVal.tuple [PyVal.str "b", PyVal.str "c"]) 1).raw_thoughts
          = (initMind 10).raw_thoughts ++
            [pyStr (PyVal.tuple [PyVal.str "b", PyVal.str "c"])]) ∧
    (expand (fun s => s) (initMind 10) (PyVal.list [PyVal.str "a"]) 1
      = [PyVal.str "a"].foldl
          (fun acc t => expandOne (fun s => s) acc (pyStr t) 1)
          (initMind 10)) :=
  ⟨((expand_list_dispatch (fun s => s) (initMind 10)
      (PyVal.tuple [PyVal.str "b", PyVal.str "c"]) 1).1 (by decide)).1,
   ((expand_list_dispatch (fun s => s) (initMind 10)
      (PyVal.tuple [PyVal.str "b", PyVal.str "c"]) 1).1 (by decide)).2
     (by decide),
   (expand_list_dispatch (fun s => s) (initMind 10)
      (PyVal.list [PyVal.str "a"]) 1).2 [PyVal.str "a"] rfl⟩

end InfiniteMind
